import Mathlib

/-!
Verification of the hail expression-algebra / IR-builder core
(`src/python/hail/expr/expressions/base_expression.py` and
`src/python/hail/ir/matrix_ir.py`) against its specification.

The Python source is shallowly embedded: Python values become an inductive
`PyVal`, Hail types an inductive `HailType`, exceptions become `Except` /
`Option` results, and object identity (Python `is`) is modelled by tagging
the opaque source objects with natural-number identities.
-/

namespace Hail

/- The Hail type lattice (`hail.expr.types`): primitives plus the composite
constructors used by `impute_type`.  `tlocus` carries its reference-genome
name, `tinterval` its point type.  The type lists inside `ttuple` and
`tstruct` are mutual inductives (rather than nested `List`s) so that
decidable equality can be derived. -/
mutual
/-- Hail value types (see the module comment above `HailTypeList`). -/
inductive HailType where
  | tbool
  | tint32
  | tint64
  | tfloat32
  | tfloat64
  | tstr
  | tcall
  | tlocus (referenceGenome : String)
  | tinterval (pointType : HailType)
  | tarray (elementType : HailType)
  | tset (elementType : HailType)
  | tdict (keyType : HailType) (valueType : HailType)
  | ttuple (types : HailTypeList)
  | tstruct (fields : HailFieldList)
  deriving DecidableEq, Repr

/-- An ordered list of types (the payload of `ttuple`). -/
inductive HailTypeList where
  | nil
  | cons (t : HailType) (ts : HailTypeList)
  deriving DecidableEq, Repr

/-- An ordered name→type field list (the payload of `tstruct`). -/
inductive HailFieldList where
  | nil
  | cons (name : String) (t : HailType) (fs : HailFieldList)
  deriving DecidableEq, Repr
end

open HailType

/-- `is_numeric` from `hail.expr.types`: the four numeric primitives. -/
def isNumeric : HailType → Bool
  | tint32 => true
  | tint64 => true
  | tfloat32 => true
  | tfloat64 => true
  | _ => false

/-- `isinstance(t, tarray)`. -/
def isArray : HailType → Bool
  | tarray _ => true
  | _ => false

/-- `t.element_type` of an array type (meaningful only on arrays; other
types are mapped to themselves, and every use below is guarded by
`isArray`). -/
def elementType : HailType → HailType
  | tarray et => et
  | t => t

/-- `unify_types_limited(*ts)` (base_expression.py:339-355).  `set(ts)` is
modelled by `List.dedup`; the singleton check returns the unique element;
otherwise, when all inputs are numeric, float64 wins, then float32, else the
code asserts the set is exactly `{int32, int64}` and returns int64.  (The
assert is validated for non-empty input by `unify_types_limited_assert`
below.)  `None` (no unification) is `Option.none`. -/
def unify_types_limited (ts : List HailType) : Option HailType :=
  if ts.dedup.length = 1 then ts.dedup.head?
  else if ts.all isNumeric then
    if tfloat64 ∈ ts.dedup then some tfloat64
    else if tfloat32 ∈ ts.dedup then some tfloat32
    else some tint64
  else none

/-- `unify_types(*ts)` (base_expression.py:358-369): try limited
unification; if that fails and every input is an array type, apply *limited*
unification to the element types and wrap in `tarray`; else fail. -/
def unify_types (ts : List HailType) : Option HailType :=
  match unify_types_limited ts with
  | some t => some t
  | none =>
    if ts.all isArray then
      match unify_types_limited (ts.map elementType) with
      | some et => some (tarray et)
      | none => none
    else none

/-! ### Python values and `impute_type` -/

/-- Shallow embedding of the Python values `impute_type`
(base_expression.py:74-140) dispatches on.  `vfloat`'s payload is an opaque
tag: `impute_type` never inspects the float's value.  `vexpr` stands for an
`Expression` operand (whose `dtype` is returned directly) and `vaggregable`
for an `Aggregable`; `vother` is any other Python object. -/
inductive PyVal where
  | vNone
  | vbool (b : Bool)
  | vint (n : Int)
  | vfloat (tag : Nat)
  | vstr (s : String)
  | vlocus (referenceGenome : String)
  | vinterval (pointType : HailType)
  | vcall
  | vstruct (fields : List (String × PyVal))
  | vtuple (xs : List PyVal)
  | vlist (xs : List PyVal)
  | vset (xs : List PyVal)
  | vdict (entries : List (PyVal × PyVal))
  | vexpr (dtype : HailType)
  | vaggregable
  | vother

/-- The distinct failures `impute_type` can raise.  All are
`ExpressionException`s except `intOutOfRange`, which Python raises as a
`ValueError` ("no integer data type large enough"). -/
inductive ImputeError where
  | aggregable
  | intOutOfRange
  | emptyList
  | emptySet
  | emptyDict
  | heterogeneousList
  | heterogeneousSet
  | heterogeneousDictKeys
  | heterogeneousDictValues
  | noneValue
  | generic
  deriving DecidableEq, Repr

/-- `hl.tint32.min_value`. -/
def int32Min : Int := -2147483648
/-- `hl.tint32.max_value`. -/
def int32Max : Int := 2147483647
/-- `hl.tint64.min_value`. -/
def int64Min : Int := -9223372036854775808
/-- `hl.tint64.max_value`. -/
def int64Max : Int := 9223372036854775807

mutual
/-- `impute_type(x)` (base_expression.py:74-140).  Python's
`{impute_type(element) for element in x}` builds a *set* of element types;
here the list of element types (with duplicates) is passed directly to
`unify_types_limited`, which dedups first, so the result is identical. -/
def imputeType : PyVal → Except ImputeError HailType
  | .vexpr dtype => .ok dtype
  | .vaggregable => .error .aggregable
  | .vbool _ => .ok .tbool
  | .vint n =>
    if int32Min ≤ n ∧ n ≤ int32Max then .ok .tint32
    else if int64Min ≤ n ∧ n ≤ int64Max then .ok .tint64
    else .error .intOutOfRange
  | .vfloat _ => .ok .tfloat64
  | .vstr _ => .ok .tstr
  | .vlocus rg => .ok (.tlocus rg)
  | .vinterval pt => .ok (.tinterval pt)
  | .vcall => .ok .tcall
  | .vstruct fields => do
    let fs ← imputeFields fields
    pure (.tstruct fs)
  | .vtuple xs => do
    let ts ← imputeTuple xs
    pure (.ttuple ts)
  | .vlist xs =>
    if xs.isEmpty then .error .emptyList
    else do
      let ts ← imputeList xs
      match unify_types_limited ts with
      | some u => pure (.tarray u)
      | none => .error .heterogeneousList
  | .vset xs =>
    if xs.isEmpty then .error .emptySet
    else do
      let ts ← imputeList xs
      match unify_types_limited ts with
      | some u => pure (.tset u)
      | none => .error .heterogeneousSet
  | .vdict entries =>
    if entries.isEmpty then .error .emptyDict
    else do
      let kts ← imputeDictKeys entries
      let vts ← imputeDictValues entries
      match unify_types_limited kts with
      | none => .error .heterogeneousDictKeys
      | some ku =>
        match unify_types_limited vts with
        | none => .error .heterogeneousDictValues
        | some vu => pure (.tdict ku vu)
  | .vNone => .error .noneValue
  | .vother => .error .generic

/-- The struct branch: impute each field's type in order, keeping names. -/
def imputeFields : List (String × PyVal) → Except ImputeError HailFieldList
  | [] => .ok .nil
  | (n, v) :: rest => do
    let t ← imputeType v
    let fs ← imputeFields rest
    pure (.cons n t fs)

/-- The tuple branch: impute each element's type positionally. -/
def imputeTuple : List PyVal → Except ImputeError HailTypeList
  | [] => .ok .nil
  | x :: rest => do
    let t ← imputeType x
    let ts ← imputeTuple rest
    pure (.cons t ts)

/-- Element types of a list/set, in element order (first failure wins, as in
Python's set comprehension). -/
def imputeList : List PyVal → Except ImputeError (List HailType)
  | [] => .ok []
  | x :: rest => do
    let t ← imputeType x
    let ts ← imputeList rest
    pure (t :: ts)

/-- Key types of a dict: Python imputes all keys before any value. -/
def imputeDictKeys : List (PyVal × PyVal) → Except ImputeError (List HailType)
  | [] => .ok []
  | (k, _) :: rest => do
    let t ← imputeType k
    let ts ← imputeDictKeys rest
    pure (t :: ts)

/-- Value types of a dict (imputed only after every key imputed). -/
def imputeDictValues : List (PyVal × PyVal) → Except ImputeError (List HailType)
  | [] => .ok []
  | (_, v) :: rest => do
    let t ← imputeType v
    let ts ← imputeDictValues rest
    pure (t :: ts)
end

/-! ### Lineage: `Indices`, `Aggregation`, `Join`, `Expression` -/

/-- `Indices(source, axes)` (base_expression.py:27-58).  Python sources are
opaque objects compared by identity (`is`); identities are modelled as
natural numbers, an absent source as `none`.  Axes are a set of strings. -/
structure Indices where
  source : Option Nat
  axes : Finset String
  deriving DecidableEq

/-- One entry of an expression's `_refs` linked list: a
`(field-name, indices)` pair. -/
structure Ref where
  name : String
  indices : Indices
  deriving DecidableEq

/-- `Aggregation(indices, refs)` (base_expression.py:61-64). -/
structure Aggregation where
  indices : Indices
  refs : List Ref
  deriving DecidableEq

/-- `Join(join_function, temp_vars, uid)` (base_expression.py:67-71); the
deferred compute function is opaque and modelled by a numeric tag. -/
structure Join where
  joinFunctionTag : Nat
  tempVars : List String
  uid : Nat
  deriving DecidableEq

/-- Modelled from the spec: `LinkedList.push` of `hail.utils.linkedlist`
(not under `src/`).  The spec describes persistent singly-linked lists with
O(1) prepend and `push` concatenating another list's elements by repeated
prepend; lists are written head-first, so pushing `es` prepends its
elements one at a time onto `base`. -/
def llPush (base : List α) (es : List α) : List α :=
  es.foldl (fun n e => e :: n) base

/-- `Indices.unify`'s fold state: accumulated source and axes
(base_expression.py:39-52).  An `ExpressionException` is `.error ()`.  Each
iteration mirrors the loop body: `if src is None: src = ind.source`, else
raise when `ind.source is not None and ind.source is not src`; then union
the axes. -/
def Indices.unifyAux (src : Option Nat) (axes : Finset String) :
    List Indices → Except Unit Indices
  | [] => .ok ⟨src, axes⟩
  | ind :: rest =>
    if src = none then Indices.unifyAux ind.source (axes ∪ ind.axes) rest
    else if ind.source ≠ none ∧ ind.source ≠ src then .error ()
    else Indices.unifyAux src (axes ∪ ind.axes) rest

/-- `Indices.unify(*indices)` (base_expression.py:39-52): fold over the
inputs accumulating the axis union; the first non-null source becomes the
accepted source; a later different non-null source raises. -/
def Indices.unify (indices : List Indices) : Except Unit Indices :=
  Indices.unifyAux none ∅ indices

/-- The abstract syntax fragments (`hail.expr.expr_ast`) produced by the
builder operations of this file; `leaf` is any pre-existing AST. -/
inductive AST where
  | leaf (tag : Nat)
  | reference (uid : Nat)
  | unaryOperation (op : String) (child : AST)
  | binaryOperation (op : String) (left : AST) (right : AST)
  | select (child : AST) (name : String)
  | classMethod (name : String) (callee : AST) (args : List AST)
  | indexNode (collection : AST) (key : AST)
  | sliceNode (start : Option AST) (stop : Option AST)
  | lambdaClassMethod (name : String) (uid : Nat) (callee : AST)
      (body : AST) (args : List AST)

/-- `Expression` (base_expression.py:372-399): an AST, a type, and the three
lineage lists plus `refs`. -/
structure Expression where
  ast : AST
  type : HailType
  indices : Indices
  aggregations : List Aggregation
  joins : List Join
  refs : List Ref

/-- Insert a key at the end of the key list unless already present —
`defaultdict` key creation order. -/
def insertIfNew (acc : List (Option Nat)) (s : Option Nat) : List (Option Nat) :=
  if s ∈ acc then acc else acc ++ [s]

/-- The distinct sources appearing in a refs list, in first-occurrence
order: the keys of the `sources` defaultdict built by `_verify_sources`
(base_expression.py:375-385). -/
def distinctSources (refs : List Ref) : List (Option Nat) :=
  refs.foldl (fun acc r => insertIfNew acc r.indices.source) []

/-- `Expression._verify_sources` (base_expression.py:375-385) as a boolean
check: at most one distinct source may appear across `refs`, and when one
appears it must equal `indices.source`; `false` means the Python code
raises `FatalError`. -/
def Expression.verify_sources (e : Expression) : Bool :=
  let ss := distinctSources e.refs
  decide (ss.length ≤ 1) &&
    (ss.isEmpty || decide (ss.head? = some e.indices.source))

/-- Append `name` to the bucket of source `src`, creating the bucket at the
end if absent — one `sources[inds.source].append(str(name))` step of the
diagnostic grouping in `unify_all` (base_expression.py:318-322). -/
def addToBucket : List (Option Nat × List String) → Option Nat → String →
    List (Option Nat × List String)
  | [], src, n => [(src, [n])]
  | (s, names) :: rest, src, n =>
    if s = src then (s, names ++ [n]) :: rest
    else (s, names) :: addToBucket rest src n

/-- `itertools.chain(e._refs, *(a.refs for a in e._aggregations))`: an
operand's own refs followed by each aggregation's refs. -/
def allRefsOf (e : Expression) : List Ref :=
  e.refs ++ (e.aggregations.map (·.refs)).flatten

/-- The diagnostic grouping built on `unify_all` failure
(base_expression.py:318-322): field names grouped by source identity over
every operand's refs and every aggregation's refs, in scan order. -/
def groupRefsBySource (exprs : List Expression) : List (Option Nat × List String) :=
  ((exprs.map allRefsOf).flatten).foldl
    (fun acc r => addToBucket acc r.indices.source r.name) []

/-- The distinct failure modes of expression construction.  `fatal` is the
internal-consistency `FatalError` of `_verify_sources`; `crossSource`
carries the user-facing diagnostic grouping of `unify_all`;
`notImplemented` / `typeErr` are Python `NotImplementedError` /
`TypeError`; `emptyOperands` models the `assert len(exprs) > 0`. -/
inductive BuildError where
  | fatal
  | crossSource (sources : List (Option Nat × List String))
  | notImplemented
  | typeErr
  | emptyOperands

/-- The quadruple returned by `unify_all` on success. -/
structure UnifiedLineage where
  indices : Indices
  aggregations : List Aggregation
  joins : List Join
  refs : List Ref

/-- `unify_all(*exprs)` (base_expression.py:312-336): unify all operands'
indices; on failure, rescan every operand's refs and aggregation refs and
raise the grouped cross-source diagnostic; on success, push-concatenate the
three lineage lists with the first operand's lists as the base. -/
def unify_all (exprs : List Expression) : Except BuildError UnifiedLineage :=
  match exprs with
  | [] => .error .emptyOperands
  | first :: rest =>
    match Indices.unify ((first :: rest).map (·.indices)) with
    | .error _ => .error (.crossSource (groupRefsBySource (first :: rest)))
    | .ok inds =>
      .ok ⟨inds,
           rest.foldl (fun a e => llPush a e.aggregations) first.aggregations,
           rest.foldl (fun a e => llPush a e.joins) first.joins,
           rest.foldl (fun a e => llPush a e.refs) first.refs⟩

/-- `expressions.construct_expr(...)`: every construction runs
`Expression.__init__`, which ends in `_verify_sources`
(base_expression.py:387-399); a failed check raises `FatalError`. -/
def construct_expr (ast : AST) (type : HailType) (indices : Indices)
    (aggregations : List Aggregation) (joins : List Join) (refs : List Ref) :
    Except BuildError Expression :=
  if (Expression.mk ast type indices aggregations joins refs).verify_sources
  then .ok ⟨ast, type, indices, aggregations, joins, refs⟩
  else .error .fatal

/-! ### Builder operations (base_expression.py:465-527)

`to_expr` applied to an operand that is already an `Expression` returns it
unchanged, so the builders below take their operands as expressions. -/

/-- `Expression._unary_op` (base_expression.py:465-467): same type and
lineage, new AST wrapping the receiver's. -/
def Expression.unary_op (e : Expression) (op : String) : Except BuildError Expression :=
  construct_expr (.unaryOperation op e.ast) e.type e.indices
    e.aggregations e.joins e.refs

/-- `Expression._bin_op` (base_expression.py:469-474). -/
def Expression.bin_op (e : Expression) (op : String) (other : Expression)
    (retType : HailType) : Except BuildError Expression := do
  let u ← unify_all [e, other]
  construct_expr (.binaryOperation op e.ast other.ast) retType
    u.indices u.aggregations u.joins u.refs

/-- `Expression._bin_op_reverse` (base_expression.py:476-481). -/
def Expression.bin_op_reverse (e : Expression) (op : String) (other : Expression)
    (retType : HailType) : Except BuildError Expression := do
  let u ← unify_all [e, other]
  construct_expr (.binaryOperation op other.ast e.ast) retType
    u.indices u.aggregations u.joins u.refs

/-- `Expression._field` (base_expression.py:483-485): a `Select` AST with
the receiver's indices, aggregations, joins and refs passed through
unchanged. -/
def Expression.field (e : Expression) (name : String) (retType : HailType) :
    Except BuildError Expression :=
  construct_expr (.select e.ast name) retType e.indices
    e.aggregations e.joins e.refs

/-- `Expression._method` (base_expression.py:487-491). -/
def Expression.method (e : Expression) (name : String) (retType : HailType)
    (args : List Expression) : Except BuildError Expression := do
  let u ← unify_all (e :: args)
  construct_expr (.classMethod name e.ast (args.map (·.ast))) retType
    u.indices u.aggregations u.joins u.refs

/-- `Expression._index` (base_expression.py:493-497). -/
def Expression.indexOp (e : Expression) (retType : HailType) (key : Expression) :
    Except BuildError Expression := do
  let u ← unify_all [e, key]
  construct_expr (.indexNode e.ast key.ast) retType
    u.indices u.aggregations u.joins u.refs

/-- `Expression._slice` (base_expression.py:499-516): a non-null `step`
raises `NotImplementedError`; otherwise the non-null ends are unified in. -/
def Expression.sliceOp (e : Expression) (retType : HailType)
    (start stop step : Option Expression) : Except BuildError Expression :=
  if step.isSome then .error .notImplemented
  else do
    let u ← unify_all (e :: (start.toList ++ stop.toList))
    construct_expr (.indexNode e.ast (.sliceNode (start.map (·.ast)) (stop.map (·.ast))))
      retType u.indices u.aggregations u.joins u.refs

/-- The placeholder expression `_bin_lambda_method` builds for the bound
variable (base_expression.py:520-523): a `Reference` AST carrying the
receiver's lineage and the lambda's input type. -/
def lambdaPlaceholder (e : Expression) (uid : Nat) (inputType : HailType) :
    Except BuildError Expression :=
  construct_expr (.reference uid) inputType e.indices
    e.aggregations e.joins e.refs

/-- `Expression._bin_lambda_method` (base_expression.py:518-527), given the
body expression obtained by applying the user's callback to the
placeholder: unify receiver and body, result type from the body's type. -/
def Expression.bin_lambda_method (e : Expression) (name : String) (uid : Nat)
    (body : Expression) (retTypeF : HailType → HailType) (args : List Expression) :
    Except BuildError Expression := do
  let u ← unify_all [e, body]
  construct_expr (.lambdaClassMethod name uid e.ast body.ast (args.map (·.ast)))
    (retTypeF body.type) u.indices u.aggregations u.joins u.refs

/-- `Expression.__lt__` (base_expression.py:440-441): always raises. -/
def Expression.lt (_e _other : Expression) : Except BuildError Expression :=
  .error .notImplemented

/-- `Expression.__le__` (base_expression.py:443-444): always raises. -/
def Expression.le (_e _other : Expression) : Except BuildError Expression :=
  .error .notImplemented

/-- `Expression.__gt__` (base_expression.py:446-447): always raises. -/
def Expression.gt (_e _other : Expression) : Except BuildError Expression :=
  .error .notImplemented

/-- `Expression.__ge__` (base_expression.py:449-450): always raises. -/
def Expression.ge (_e _other : Expression) : Except BuildError Expression :=
  .error .notImplemented

/-- `Expression.__nonzero__` (base_expression.py:455-460): truthiness always
raises. -/
def Expression.nonzero (_e : Expression) : Except BuildError Bool :=
  .error .notImplemented

/-- `Expression.__iter__` (base_expression.py:462-463): iteration always
raises `TypeError`. -/
def Expression.iterOp (_e : Expression) : Except BuildError (List Expression) :=
  .error .typeErr

/-- `Expression.__len__` (base_expression.py:540-541): length always raises
`TypeError`. -/
def Expression.lenOp (_e : Expression) : Except BuildError Nat :=
  .error .typeErr

/-- The strengthened leaf condition: every recorded ref names the
expression's own source, and an expression with refs has a non-null
source. -/
def StrongValid (e : Expression) : Prop :=
  (∀ r ∈ e.refs, r.indices.source = e.indices.source) ∧
  (e.refs ≠ [] → e.indices.source ≠ none)

/-- Look up the bucket of names recorded for a source in the grouped
diagnostic (association-list lookup). -/
def bucketNames : List (Option Nat × List String) → Option Nat → Option (List String)
  | [], _ => none
  | (s, names) :: rest, src => if s = src then some names else bucketNames rest src

/-- The field names recorded for one source, in scan order (the reference
characterization of one diagnostic bucket). -/
def refsNamesFor (rl : List Ref) (src : Option Nat) : List String :=
  (rl.filter (fun r => r.indices.source == src)).map (·.name)

/-! ### Chains of builder operations -/

/-- `Built leaves e`: the expression `e` is produced by a finite chain of
builder operations (unary op, binary op, field select, method call,
index/slice, lambda-bodied method) starting from leaves satisfying
`leaves`.  Inside a lambda body the placeholder expression (which carries
the receiver's lineage) becomes an additional available leaf. -/
inductive Built : (Expression → Prop) → Expression → Prop where
  | leaf {leaves : Expression → Prop} {e} :
      leaves e → Built leaves e
  | unary {leaves e op r} :
      Built leaves e → e.unary_op op = .ok r → Built leaves r
  | bin {leaves : Expression → Prop} {e op o t r} :
      Built leaves e → Built leaves o → e.bin_op op o t = .ok r →
      Built leaves r
  | binRev {leaves : Expression → Prop} {e op o t r} :
      Built leaves e → Built leaves o → e.bin_op_reverse op o t = .ok r →
      Built leaves r
  | fieldSel {leaves e n t r} :
      Built leaves e → e.field n t = .ok r → Built leaves r
  | methodCall {leaves : Expression → Prop} {e n t args r} :
      Built leaves e → (∀ a ∈ args, Built leaves a) →
      e.method n t args = .ok r → Built leaves r
  | indexing {leaves : Expression → Prop} {e t k r} :
      Built leaves e → Built leaves k → e.indexOp t k = .ok r →
      Built leaves r
  | slicing {leaves : Expression → Prop} {e t start stop step r} :
      Built leaves e →
      (∀ x, start = some x → Built leaves x) →
      (∀ x, stop = some x → Built leaves x) →
      e.sliceOp t start stop step = .ok r → Built leaves r
  | lambdaBody {leaves : Expression → Prop} {e name uid inputType ph body retF args r} :
      Built leaves e →
      lambdaPlaceholder e uid inputType = .ok ph →
      Built (fun x => leaves x ∨ x = ph) body →
      e.bin_lambda_method name uid body retF args = .ok r →
      Built leaves r

/-! ### The materialization bridge, 1-axis matrix case -/

/-- The capability surface of a matrix-like source consumed by
`Expression._to_table` (base_expression.py:647-675): an object identity,
the per-axis key-field lists, and `_fields_inverse`, the reverse lookup
from *expression identity* (Python dict keyed on object identity) to an
already-bound field name.  Expression identities are modelled as naturals,
like source identities. -/
structure MatrixSource where
  ident : Nat
  rowKey : List String
  colKey : List String
  fieldsInverse : Nat → Option String

/-- Modelled from the spec: `MatrixTable._row_indices = Indices(self,
{'row'})` (matrix_table.py is not under `src/`; the spec's axis labels are
row/column instances). -/
def MatrixSource.rowIndices (s : MatrixSource) : Indices :=
  ⟨some s.ident, {"row"}⟩

/-- Modelled from the spec: `MatrixTable._col_indices = Indices(self,
{'column'})` (matrix_table.py is not under `src/`). -/
def MatrixSource.colIndices (s : MatrixSource) : Indices :=
  ⟨some s.ident, {"column"}⟩

/-- Modelled from the spec: the structural operations of the source
capability interface (`select_rows` / `select_cols` with existing field
names, the same with one brand-new derived field, `rename`, `rows`/`cols`
projection, `select_globals`) as opaque plan constructors; their
implementations live outside `src/`.  `deriveRowField`/`deriveColField`
are the only constructors that derive a brand-new field from an
expression. -/
inductive MTOp where
  | base
  | selectRowFields (fields : List String) (m : MTOp)
  | deriveRowField (fields : List String) (name : String) (exprId : Nat) (m : MTOp)
  | selectColFields (fields : List String) (m : MTOp)
  | deriveColField (fields : List String) (name : String) (exprId : Nat) (m : MTOp)
  | rename (oldName : String) (newName : String) (m : MTOp)
  | rows (m : MTOp)
  | cols (m : MTOp)
  | selectGlobals (m : MTOp)
  deriving DecidableEq, Repr

/-- The `len(axes) == 1`, matrix-source branch of `Expression._to_table`
(base_expression.py:653-675): dispatch row/column on whether the
expression's indices equal the source's row indices; reverse-look-up the
expression's identity; on a hit, select the keys (plus the found field when
it is not itself a key) and rename it to the requested output name; on a
miss, derive a brand-new field. -/
def matrixToTableOneAxis (source : MatrixSource) (inds : Indices)
    (exprId : Nat) (name : String) : MTOp :=
  if inds = source.rowIndices then
    match source.fieldsInverse exprId with
    | some fieldName =>
      MTOp.selectGlobals (.rows (.rename fieldName name
        (if fieldName ∈ source.rowKey
         then MTOp.selectRowFields source.rowKey .base
         else MTOp.selectRowFields (source.rowKey ++ [fieldName]) .base)))
    | none =>
      MTOp.selectGlobals (.rows (.deriveRowField source.rowKey name exprId .base))
  else
    match source.fieldsInverse exprId with
    | some fieldName =>
      MTOp.selectGlobals (.cols (.rename fieldName name
        (if fieldName ∈ source.colKey
         then MTOp.selectColFields source.colKey .base
         else MTOp.selectColFields (source.colKey ++ [fieldName]) .base)))
    | none =>
      MTOp.selectGlobals (.cols (.deriveColField source.colKey name exprId .base))

/-- Whether a plan contains a node deriving a brand-new field from an
expression (the observable distinguishing re-derivation from reuse). -/
def hasDerivation : MTOp → Bool
  | .base => false
  | .selectRowFields _ m => hasDerivation m
  | .deriveRowField _ _ _ _ => true
  | .selectColFields _ m => hasDerivation m
  | .deriveColField _ _ _ _ => true
  | .rename _ _ m => hasDerivation m
  | .rows m => hasDerivation m
  | .cols m => hasDerivation m
  | .selectGlobals m => hasDerivation m

/-! ### IR rendering (matrix_ir.py) -/

/-- Modelled from the spec: `escape_str` of `hail.utils.java` (not under
`src/`): double-quoted string literals use "backslash escaping of quotes,
backslashes, and control characters" (spec §6); a control character is
escaped by a backslash followed by its letter form, here uniformly modelled
with the character code. -/
def escapeChars : List Char → List Char
  | [] => []
  | c :: cs =>
    if c = '"' ∨ c = '\\' then '\\' :: c :: escapeChars cs
    else if c.toNat < 32 then '\\' :: c :: escapeChars cs
    else c :: escapeChars cs

/-- See `escapeChars`. -/
def escape_str (s : String) : String :=
  String.mk (escapeChars s.data)

/-- `True`/`False`, the interpolation of a Python bool into an f-string. -/
def pyBoolStr (b : Bool) : String :=
  if b then "True" else "False"

/-- Modelled from the spec: `json.dumps` of a string value (JSON escaping
of quotes and backslashes, double-quoted). -/
def jsonString (s : String) : String :=
  "\"" ++ escape_str s ++ "\""

/-- Modelled from the spec: `json.dumps(config)` for the fixed two-field
`MatrixNativeReader` configuration dict of `MatrixRead.render`
(matrix_ir.py:22-27). -/
def matrixReadConfig (path : String) : String :=
  "\x7b\"name\": \"MatrixNativeReader\", \"path\": " ++ jsonString path ++ "\x7d"

/-- `MatrixRead.render` (matrix_ir.py:22-27): the configuration blob is
passed through `escape_str` before interpolation between double quotes. -/
def matrixReadRender (path : String) (dropCols dropRows : Bool) : String :=
  "(MatrixRead None " ++ pyBoolStr dropCols ++ " " ++ pyBoolStr dropRows ++
    " \"" ++ escape_str (matrixReadConfig path) ++ "\")"

/-- `MatrixAnnotateRowsTable.render` (matrix_ir.py:299-306): `self.root` is
interpolated between double quotes *without* `escape_str`; the key list
(when present) is interpolated via `str(x)`, modelled as pre-rendered
strings; children are pre-rendered by the `r` callback. -/
def matrixAnnotateRowsTableRender (root : String) (key : Option (List String))
    (childR tableR : String) : String :=
  "(MatrixAnnotateRowsTable \"" ++ root ++ "\" " ++
    pyBoolStr key.isSome ++ " " ++ childR ++ " " ++ tableR ++ " " ++
    (match key with
     | none => ""
     | some xs => " ".intercalate xs) ++ ")"

/-! ### Concrete inputs used by witnesses and counterexamples -/

/-- A leaf whose single ref names its own non-null source. -/
def c1Leaf : Expression :=
  ⟨.leaf 0, .tint32, ⟨some 1, ∅⟩, [], [], [⟨"x", ⟨some 1, ∅⟩⟩]⟩

/-- A leaf that passes `_verify_sources` (its only ref records null-source
indices matching its own null source) but carries a null-source ref. -/
def c1BadLeafA : Expression :=
  ⟨.leaf 0, .tint32, ⟨none, ∅⟩, [], [], [⟨"f", ⟨none, ∅⟩⟩]⟩

/-- A plain sourced leaf with no refs. -/
def c1BadLeafB : Expression :=
  ⟨.leaf 1, .tint32, ⟨some 5, ∅⟩, [], [], []⟩

/-- The expression constructed by `c1Leaf.bin_op "+" c1Leaf .tint32`
(computed by hand: unified indices `(some 1, ∅)`, pushed refs). -/
def c1BinResult : Expression :=
  ⟨.binaryOperation "+" (.leaf 0) (.leaf 0), .tint32, ⟨some 1, ∅⟩, [], [],
   [⟨"x", ⟨some 1, ∅⟩⟩, ⟨"x", ⟨some 1, ∅⟩⟩]⟩

/-- A sourced leaf recording one ref, for the cross-source diagnostic. -/
def c4LeafA : Expression :=
  ⟨.leaf 0, .tint32, ⟨some 1, ∅⟩, [], [], [⟨"x", ⟨some 1, ∅⟩⟩]⟩

/-- A leaf bound to a different source than `c4LeafA`. -/
def c4LeafB : Expression :=
  ⟨.leaf 1, .tint32, ⟨some 2, ∅⟩, [], [], [⟨"y", ⟨some 2, ∅⟩⟩]⟩

/-- A sourced leaf with empty refs, receiver of the C7 field select. -/
def c7Leaf : Expression :=
  ⟨.leaf 0, .tstruct (.cons "y" .tint32 .nil), ⟨some 1, ∅⟩, [], [], []⟩

/-- A matrix source with key `k`, a bound row field `f` known to the
reverse lookup as expression identity `10`, and nothing else. -/
def c5Source : MatrixSource :=
  ⟨7, ["k"], ["s"], fun i => if i = 10 then some "f" else none⟩

theorem mem_insertIfNew (acc : List (Option Nat)) (s x : Option Nat) :
    x ∈ insertIfNew acc s ↔ x ∈ acc ∨ x = s := by
  unfold insertIfNew
  split <;> rename_i h
  · constructor
    · exact Or.inl
    · rintro (hx | rfl)
      · exact hx
      · exact h
  · simp

theorem mem_foldl_insertIfNew (refs : List Ref) (acc : List (Option Nat))
    (x : Option Nat) :
    x ∈ refs.foldl (fun a r => insertIfNew a r.indices.source) acc ↔
      x ∈ acc ∨ ∃ r ∈ refs, r.indices.source = x := by
  induction refs generalizing acc with
  | nil => simp
  | cons r rest ih =>
    rw [List.foldl_cons, ih]
    rw [mem_insertIfNew]
    constructor
    · rintro ((hx | hx) | ⟨r', hr', hx⟩)
      · exact Or.inl hx
      · exact Or.inr ⟨r, List.mem_cons_self r rest, hx.symm⟩
      · exact Or.inr ⟨r', List.mem_cons_of_mem r hr', hx⟩
    · rintro (hx | ⟨r', hr', hx⟩)
      · exact Or.inl (Or.inl hx)
      · rcases List.mem_cons.mp hr' with rfl | hr'
        · exact Or.inl (Or.inr hx.symm)
        · exact Or.inr ⟨r', hr', hx⟩

theorem foldl_insertIfNew_of_mem (refs : List Ref) (s : Option Nat)
    (h : ∀ r ∈ refs, r.indices.source = s) :
    ∀ acc, s ∈ acc → refs.foldl (fun a r => insertIfNew a r.indices.source) acc = acc := by
  induction refs with
  | nil => intro acc _; rfl
  | cons r rest ih =>
    intro acc hs
    rw [List.foldl_cons]
    have hr : r.indices.source = s := h r (List.mem_cons_self r rest)
    have : insertIfNew acc r.indices.source = acc := by
      unfold insertIfNew
      rw [hr, if_pos hs]
    rw [this]
    exact ih (fun r' hr' => h r' (List.mem_cons_of_mem r hr')) acc hs

/-- If every ref names the same source `s`, the distinct-source key list of
`_verify_sources` is empty or the singleton `[s]`. -/
theorem distinctSources_all_eq (refs : List Ref) (s : Option Nat)
    (h : ∀ r ∈ refs, r.indices.source = s) :
    distinctSources refs = [] ∨ distinctSources refs = [s] := by
  cases refs with
  | nil => exact Or.inl rfl
  | cons r rest =>
    right
    unfold distinctSources
    rw [List.foldl_cons]
    have hr : r.indices.source = s := h r (List.mem_cons_self r rest)
    have h1 : insertIfNew [] r.indices.source = [s] := by
      unfold insertIfNew; rw [hr]; simp
    rw [h1]
    exact foldl_insertIfNew_of_mem rest s
      (fun r' hr' => h r' (List.mem_cons_of_mem r hr')) [s] (by simp)

/-- `StrongValid` implies the `_verify_sources` boolean check passes. -/
theorem verify_sources_of_strongValid (e : Expression) (h : StrongValid e) :
    e.verify_sources = true := by
  unfold Expression.verify_sources
  rcases distinctSources_all_eq e.refs e.indices.source h.1 with hd | hd <;>
    simp [hd]

/-- Splitting one `Indices.unifyAux` iteration: on success, either `src`
was null and the fold continued with the element's source, or the element's
source was null-or-equal-to-`src` and the fold continued with `src`. -/
theorem unifyAux_cons_ok (src : Option Nat) (axes : Finset String)
    (ind : Indices) (rest : List Indices) (r : Indices)
    (h : Indices.unifyAux src axes (ind :: rest) = .ok r) :
    (src = none ∧ Indices.unifyAux ind.source (axes ∪ ind.axes) rest = .ok r) ∨
    (src ≠ none ∧ (ind.source = none ∨ ind.source = src) ∧
      Indices.unifyAux src (axes ∪ ind.axes) rest = .ok r) := by
  unfold Indices.unifyAux at h
  by_cases h1 : src = none
  · rw [if_pos h1] at h
    exact Or.inl ⟨h1, h⟩
  · rw [if_neg h1] at h
    by_cases h2 : ind.source ≠ none ∧ ind.source ≠ src
    · rw [if_pos h2] at h; cases h
    · rw [if_neg h2] at h
      push_neg at h2
      by_cases h3 : ind.source = none
      · exact Or.inr ⟨h1, Or.inl h3, h⟩
      · exact Or.inr ⟨h1, Or.inr (h2 h3), h⟩

/-- Accumulated non-null source is carried to the result. -/
theorem unifyAux_some_source (l : List Indices) (s : Nat) (axes : Finset String)
    (r : Indices) (h : Indices.unifyAux (some s) axes l = .ok r) :
    r.source = some s := by
  induction l generalizing axes with
  | nil =>
    unfold Indices.unifyAux at h
    cases h
    rfl
  | cons ind rest ih =>
    rcases unifyAux_cons_ok _ _ _ _ _ h with ⟨hn, _⟩ | ⟨_, _, h'⟩
    · cases hn
    · exact ih _ h'

/-- Every input with a non-null source agrees with the unified source. -/
theorem unifyAux_mem_source (l : List Indices) (src : Option Nat)
    (axes : Finset String) (r : Indices) (h : Indices.unifyAux src axes l = .ok r) :
    ∀ i ∈ l, i.source ≠ none → i.source = r.source := by
  induction l generalizing src axes with
  | nil => intro i hi; cases hi
  | cons ind rest ih =>
    intro i hi hne
    rcases unifyAux_cons_ok _ _ _ _ _ h with ⟨_, h'⟩ | ⟨hsrcne, hor, h'⟩
    · rcases List.mem_cons.mp hi with rfl | hi'
      · cases hsi : i.source with
        | none => exact absurd hsi hne
        | some s2 =>
          rw [hsi] at h'
          exact (unifyAux_some_source rest s2 _ r h').symm
      · exact ih _ _ h' i hi' hne
    · rcases List.mem_cons.mp hi with rfl | hi'
      · rcases hor with hn | hs
        · exact absurd hn hne
        · rcases Option.ne_none_iff_exists'.mp hsrcne with ⟨s, rfl⟩
          rw [hs]
          exact (unifyAux_some_source rest s _ r h').symm
      · exact ih _ _ h' i hi' hne

/-- With no source accumulated yet, the unified source is the first
non-null source among the inputs. -/
theorem unifyAux_none_source (l : List Indices) (axes : Finset String)
    (r : Indices) (h : Indices.unifyAux none axes l = .ok r) :
    r.source = l.findSome? (·.source) := by
  induction l generalizing axes with
  | nil =>
    unfold Indices.unifyAux at h
    cases h
    rfl
  | cons ind rest ih =>
    rcases unifyAux_cons_ok _ _ _ _ _ h with ⟨_, h'⟩ | ⟨hn, _, _⟩
    · rw [List.findSome?_cons]
      cases hsi : ind.source with
      | none =>
        rw [hsi] at h'
        simpa using ih _ h'
      | some s =>
        rw [hsi] at h'
        simpa using unifyAux_some_source rest s _ r h'
    · exact absurd rfl hn

/-- The unified axes are the union of the accumulator and all input axes. -/
theorem unifyAux_axes (l : List Indices) (src : Option Nat)
    (axes : Finset String) (r : Indices) (h : Indices.unifyAux src axes l = .ok r) :
    ∀ a, a ∈ r.axes ↔ a ∈ axes ∨ ∃ i ∈ l, a ∈ i.axes := by
  induction l generalizing src axes with
  | nil =>
    unfold Indices.unifyAux at h
    cases h
    simp
  | cons ind rest ih =>
    intro a
    have step : ∀ src', Indices.unifyAux src' (axes ∪ ind.axes) rest = .ok r →
        (a ∈ r.axes ↔ a ∈ axes ∨ ∃ i ∈ ind :: rest, a ∈ i.axes) := by
      intro src' h'
      rw [ih _ _ h' a]
      simp [Finset.mem_union, or_assoc]
    rcases unifyAux_cons_ok _ _ _ _ _ h with ⟨_, h'⟩ | ⟨_, _, h'⟩
    · exact step _ h'
    · exact step _ h'

theorem unify_ok_source (l : List Indices) (r : Indices)
    (h : Indices.unify l = .ok r) : r.source = l.findSome? (·.source) :=
  unifyAux_none_source l ∅ r h

theorem unify_ok_mem_source (l : List Indices) (r : Indices)
    (h : Indices.unify l = .ok r) :
    ∀ i ∈ l, i.source ≠ none → i.source = r.source :=
  unifyAux_mem_source l none ∅ r h

theorem unify_ok_axes (l : List Indices) (r : Indices)
    (h : Indices.unify l = .ok r) :
    ∀ a, a ∈ r.axes ↔ ∃ i ∈ l, a ∈ i.axes := by
  intro a
  rw [unifyAux_axes l none ∅ r h a]
  simp

/-- Two inputs carrying distinct non-null sources make `Indices.unify`
fail. -/
theorem unify_error_of_distinct_sources (l : List Indices) (i j : Indices)
    (hi : i ∈ l) (hj : j ∈ l) (a b : Nat) (ha : i.source = some a)
    (hb : j.source = some b) (hab : a ≠ b) :
    Indices.unify l = .error () := by
  cases h : Indices.unify l with
  | error u => cases u; rfl
  | ok r =>
    have h1 := unify_ok_mem_source l r h i hi (by rw [ha]; exact Option.noConfusion)
    have h2 := unify_ok_mem_source l r h j hj (by rw [hb]; exact Option.noConfusion)
    rw [ha] at h1
    rw [hb] at h2
    rw [← h2] at h1
    exact absurd (Option.some_injective _ h1) hab

/-- `push` prepends the pushed elements one at a time, i.e. reverses them
onto the base. -/
theorem llPush_eq (base es : List α) : llPush base es = es.reverse ++ base := by
  induction es generalizing base with
  | nil => rfl
  | cons e es ih =>
    show llPush (e :: base) es = _
    rw [ih]
    simp

theorem mem_foldl_llPush (f : Expression → List α) (rest : List Expression)
    (base : List α) (x : α) :
    x ∈ rest.foldl (fun a e => llPush a (f e)) base ↔
      x ∈ base ∨ ∃ e ∈ rest, x ∈ f e := by
  induction rest generalizing base with
  | nil => simp
  | cons e rest ih =>
    rw [List.foldl_cons, ih, llPush_eq]
    simp only [List.mem_append, List.mem_reverse, List.mem_cons]
    constructor
    · rintro ((hx | hx) | ⟨e', he', hx⟩)
      · exact Or.inr ⟨e, Or.inl rfl, hx⟩
      · exact Or.inl hx
      · exact Or.inr ⟨e', Or.inr he', hx⟩
    · rintro (hx | ⟨e', (rfl | he'), hx⟩)
      · exact Or.inl (Or.inr hx)
      · exact Or.inl (Or.inl hx)
      · exact Or.inr ⟨e', he', hx⟩

/-- The base list survives as a suffix of the push-fold: the first
operand's lists are the base of the concatenation. -/
theorem suffix_foldl_llPush (f : Expression → List α) (rest : List Expression)
    (base : List α) :
    base <:+ rest.foldl (fun a e => llPush a (f e)) base := by
  induction rest generalizing base with
  | nil => exact List.suffix_rfl
  | cons e rest ih =>
    rw [List.foldl_cons]
    refine List.IsSuffix.trans ?_ (ih (llPush base (f e)))
    rw [llPush_eq]
    exact List.suffix_append _ _

/-- Up to permutation, the push-fold is the concatenation of the base with
all pushed lists. -/
theorem foldl_llPush_perm (f : Expression → List α) (rest : List Expression)
    (base : List α) :
    (rest.foldl (fun a e => llPush a (f e)) base).Perm
      (base ++ (rest.map f).flatten) := by
  induction rest generalizing base with
  | nil => simp
  | cons e rest ih =>
    rw [List.foldl_cons]
    refine (ih (llPush base (f e))).trans ?_
    rw [llPush_eq]
    have p1 : (((f e).reverse ++ base) ++ (rest.map f).flatten).Perm
        ((f e ++ base) ++ (rest.map f).flatten) :=
      (((f e).reverse_perm).append_right base).append_right _
    have p2 : ((f e ++ base) ++ (rest.map f).flatten).Perm
        ((base ++ f e) ++ (rest.map f).flatten) :=
      (List.perm_append_comm).append_right _
    refine (p1.trans p2).trans ?_
    simp

theorem except_bind_ok {α β ε : Type _} {x : Except ε α} {f : α → Except ε β} {b : β}
    (h : (x >>= f) = .ok b) : ∃ a, x = .ok a ∧ f a = .ok b := by
  cases x with
  | error e => exact absurd h (by simp [Bind.bind, Except.bind])
  | ok a => exact ⟨a, rfl, by simpa [Bind.bind, Except.bind] using h⟩

theorem construct_expr_ok {ast t i a j rf e}
    (h : construct_expr ast t i a j rf = .ok e) :
    e = ⟨ast, t, i, a, j, rf⟩ := by
  unfold construct_expr at h
  split at h
  · cases h; rfl
  · cases h

theorem construct_expr_ok_of_verify {ast t i a j rf}
    (h : (Expression.mk ast t i a j rf).verify_sources = true) :
    construct_expr ast t i a j rf = .ok ⟨ast, t, i, a, j, rf⟩ := by
  unfold construct_expr
  rw [if_pos h]

/-- On success, the lineage returned by `unify_all` satisfies the
strengthened ref/source agreement whenever all operands do. -/
theorem unify_all_ok_refs (exprs : List Expression) (u : UnifiedLineage)
    (h : unify_all exprs = .ok u) (hs : ∀ x ∈ exprs, StrongValid x) :
    (∀ r ∈ u.refs, r.indices.source = u.indices.source) ∧
    (u.refs ≠ [] → u.indices.source ≠ none) := by
  cases exprs with
  | nil => cases h
  | cons first rest =>
    simp only [unify_all] at h
    cases hu : Indices.unify ((first :: rest).map (·.indices)) with
    | error er => rw [hu] at h; cases h
    | ok inds =>
      rw [hu] at h
      cases h
      have hmem : ∀ r, r ∈ rest.foldl (fun a e => llPush a e.refs) first.refs →
          ∃ e ∈ first :: rest, r ∈ e.refs := by
        intro r hr
        rcases (mem_foldl_llPush (fun x => x.refs) rest first.refs r).mp hr with
          hb | ⟨e, he, hx⟩
        · exact ⟨first, List.mem_cons_self _ _, hb⟩
        · exact ⟨e, List.mem_cons_of_mem _ he, hx⟩
      constructor
      · intro r hr
        rcases hmem r hr with ⟨e, he, hre⟩
        have hsv := hs e he
        have h1 : r.indices.source = e.indices.source := hsv.1 r hre
        have h2 : e.indices.source ≠ none := hsv.2 (by intro hnil; rw [hnil] at hre; cases hre)
        have h3 : e.indices ∈ (first :: rest).map (·.indices) :=
          List.mem_map_of_mem _ he
        have := unify_ok_mem_source _ _ hu e.indices h3 h2
        rw [h1, this]
      · intro hne
        rcases List.exists_mem_of_ne_nil _ hne with ⟨r, hr⟩
        rcases hmem r hr with ⟨e, he, hre⟩
        have hsv := hs e he
        have h2 : e.indices.source ≠ none := hsv.2 (by intro hnil; rw [hnil] at hre; cases hre)
        have h3 : e.indices ∈ (first :: rest).map (·.indices) :=
          List.mem_map_of_mem _ he
        have := unify_ok_mem_source _ _ hu e.indices h3 h2
        rw [← this]
        exact h2

/-- Construction through `unify_all` from strengthened-valid operands gives
a strengthened-valid result. -/
theorem strongValid_of_unify_construct {exprs : List Expression}
    {u : UnifiedLineage} {ast t r} (hu : unify_all exprs = .ok u)
    (hs : ∀ x ∈ exprs, StrongValid x)
    (hc : construct_expr ast t u.indices u.aggregations u.joins u.refs = .ok r) :
    StrongValid r := by
  have := construct_expr_ok hc
  subst this
  exact unify_all_ok_refs exprs u hu hs

/-- Every expression built from strengthened-valid leaves is
strengthened-valid. -/
theorem built_strongValid {leaves : Expression → Prop} {e : Expression}
    (hb : Built leaves e) : (∀ l, leaves l → StrongValid l) → StrongValid e := by
  induction hb with
  | leaf h =>
    intro hl
    exact hl _ h
  | unary hb hok ih =>
    intro hl
    have he := ih hl
    have := construct_expr_ok hok
    subst this
    exact he
  | bin hb hbo hok ihe iho =>
    intro hl
    rcases except_bind_ok hok with ⟨u, hu, hc⟩
    refine strongValid_of_unify_construct hu ?_ hc
    intro x hx
    rcases List.mem_cons.mp hx with rfl | hx'
    · exact ihe hl
    · simp at hx'
      subst hx'
      exact iho hl
  | binRev hb hbo hok ihe iho =>
    intro hl
    rcases except_bind_ok hok with ⟨u, hu, hc⟩
    refine strongValid_of_unify_construct hu ?_ hc
    intro x hx
    rcases List.mem_cons.mp hx with rfl | hx'
    · exact ihe hl
    · simp at hx'
      subst hx'
      exact iho hl
  | fieldSel hb hok ih =>
    intro hl
    have he := ih hl
    have := construct_expr_ok hok
    subst this
    exact he
  | methodCall hb hargs hok ihe ihargs =>
    intro hl
    rcases except_bind_ok hok with ⟨u, hu, hc⟩
    refine strongValid_of_unify_construct hu ?_ hc
    intro x hx
    rcases List.mem_cons.mp hx with rfl | hx'
    · exact ihe hl
    · exact ihargs x hx' hl
  | indexing hb hk hok ihe ihk =>
    intro hl
    rcases except_bind_ok hok with ⟨u, hu, hc⟩
    refine strongValid_of_unify_construct hu ?_ hc
    intro x hx
    rcases List.mem_cons.mp hx with rfl | hx'
    · exact ihe hl
    · simp at hx'
      subst hx'
      exact ihk hl
  | slicing hb hstart hstop hok ihe ihstart ihstop =>
    intro hl
    unfold Expression.sliceOp at hok
    split at hok
    · cases hok
    · rcases except_bind_ok hok with ⟨u, hu, hc⟩
      refine strongValid_of_unify_construct hu ?_ hc
      intro x hx
      rcases List.mem_cons.mp hx with rfl | hx'
      · exact ihe hl
      · rcases List.mem_append.mp hx' with hx2 | hx2
        · rcases Option.mem_toList.mp hx2 with hx3
          exact ihstart x hx3 hl
        · rcases Option.mem_toList.mp hx2 with hx3
          exact ihstop x hx3 hl
  | lambdaBody hb hph hbody hok ihe ihbody =>
    intro hl
    have he := ihe hl
    have hbodyval := ihbody (by
      rintro l (hleaf | rfl)
      · exact hl _ hleaf
      · rw [construct_expr_ok hph]
        exact he)
    rcases except_bind_ok hok with ⟨u, hu, hc⟩
    refine strongValid_of_unify_construct hu ?_ hc
    intro x hx
    rcases List.mem_cons.mp hx with rfl | hx'
    · exact he
    · simp at hx'
      subst hx'
      exact hbodyval

/-! ### The cross-source diagnostic grouping -/

theorem bucketNames_addToBucket (g : List (Option Nat × List String))
    (s src : Option Nat) (n : String) :
    bucketNames (addToBucket g s n) src =
      if src = s then
        match bucketNames g s with
        | none => some [n]
        | some base => some (base ++ [n])
      else bucketNames g src := by
  induction g with
  | nil =>
    simp only [addToBucket, bucketNames]
    by_cases h : s = src
    · subst h
      simp
    · rw [if_neg h, if_neg (fun hh => h hh.symm)]
  | cons p rest ih =>
    obtain ⟨s', names'⟩ := p
    by_cases h1 : s' = s <;> by_cases h2 : s' = src <;>
      by_cases h3 : src = s <;>
      simp_all [addToBucket, bucketNames]

theorem bucketNames_groupFold (rl : List Ref) (src : Option Nat) :
    ∀ acc, bucketNames
        (rl.foldl (fun a r => addToBucket a r.indices.source r.name) acc) src =
      (match bucketNames acc src with
       | some base => some (base ++ refsNamesFor rl src)
       | none =>
         if refsNamesFor rl src = [] then none
         else some (refsNamesFor rl src)) := by
  induction rl with
  | nil =>
    intro acc
    cases hb : bucketNames acc src <;> simp [refsNamesFor, hb]
  | cons r rl ih =>
    intro acc
    rw [List.foldl_cons, ih, bucketNames_addToBucket]
    by_cases h : src = r.indices.source
    · have hpred : (r.indices.source == src) = true := by
        rw [beq_iff_eq, h]
      have hnames : refsNamesFor (r :: rl) src = r.name :: refsNamesFor rl src := by
        simp [refsNamesFor, List.filter_cons, hpred]
      rw [if_pos h, ← h, hnames]
      cases hb : bucketNames acc src <;> simp
    · have hpred : (r.indices.source == src) = false := by
        rw [beq_eq_false_iff_ne]
        exact fun hh => h hh.symm
      have hnames : refsNamesFor (r :: rl) src = refsNamesFor rl src := by
        simp [refsNamesFor, List.filter_cons, hpred]
      rw [if_neg h, hnames]

theorem bucketNames_groupRefsBySource (exprs : List Expression) (src : Option Nat) :
    bucketNames (groupRefsBySource exprs) src =
      (if refsNamesFor ((exprs.map allRefsOf).flatten) src = [] then none
       else some (refsNamesFor ((exprs.map allRefsOf).flatten) src)) := by
  unfold groupRefsBySource
  rw [bucketNames_groupFold]
  simp [bucketNames]

/-! ### Claim C1 -/

/-- The errors `unify_all` can return are never the fatal one. -/
theorem unify_all_error_ne_fatal (exprs : List Expression) (er : BuildError)
    (h : unify_all exprs = .error er) : er ≠ .fatal := by
  cases exprs with
  | nil =>
    simp only [unify_all] at h
    cases h
    exact fun hc => BuildError.noConfusion hc
  | cons first rest =>
    simp only [unify_all] at h
    cases hu : Indices.unify ((first :: rest).map (·.indices)) with
    | error e2 =>
      rw [hu] at h
      cases h
      exact fun hc => BuildError.noConfusion hc
    | ok inds =>
      rw [hu] at h
      cases h

/-- Unifying strengthened-valid operands and then constructing never raises
the fatal internal error: either `unify_all` rejects with its user-facing
error, or `_verify_sources` provably passes. -/
theorem bindConstruct_ne_fatal (exprs : List Expression) (ast : AST)
    (t : HailType) (hs : ∀ x ∈ exprs, StrongValid x) :
    (unify_all exprs >>= fun u =>
        construct_expr ast t u.indices u.aggregations u.joins u.refs) ≠
      .error .fatal := by
  intro hc
  cases h : unify_all exprs with
  | error er =>
    rw [h] at hc
    simp only [Bind.bind, Except.bind] at hc
    have her : er = .fatal := by injection hc
    exact unify_all_error_ne_fatal exprs er h her
  | ok u =>
    have hrefs := unify_all_ok_refs exprs u h hs
    have hv : (Expression.mk ast t u.indices u.aggregations u.joins
        u.refs).verify_sources = true :=
      verify_sources_of_strongValid _ ⟨hrefs.1, hrefs.2⟩
    rw [h] at hc
    simp only [Bind.bind, Except.bind] at hc
    rw [construct_expr_ok_of_verify hv] at hc
    cases hc

/-- C1 (amended): along any finite chain of builder operations (unary op,
binary op, field select, method call, index/slice, lambda-bodied method)
starting from leaves whose refs all carry the leaf's own non-null source,
the source-consistency invariant checked at every Expression construction
never fails: every reachable expression passes `_verify_sources`, and every
builder operation applied to reachable operands never returns the fatal
internal error `BuildError.fatal` (it either succeeds or fails with a
user-facing, recoverable error such as the cross-source diagnostic). -/
theorem C1_source_consistency_invariant {leaves : Expression → Prop}
    (hl : ∀ l, leaves l → StrongValid l) {e : Expression}
    (hb : Built leaves e) :
    e.verify_sources = true ∧
    (∀ op, e.unary_op op ≠ .error .fatal) ∧
    (∀ n t, e.field n t ≠ .error .fatal) ∧
    (∀ op o t, Built leaves o → e.bin_op op o t ≠ .error .fatal) ∧
    (∀ op o t, Built leaves o → e.bin_op_reverse op o t ≠ .error .fatal) ∧
    (∀ n t args, (∀ a ∈ args, Built leaves a) →
        e.method n t args ≠ .error .fatal) ∧
    (∀ t k, Built leaves k → e.indexOp t k ≠ .error .fatal) ∧
    (∀ t start stop step, (∀ x, start = some x → Built leaves x) →
        (∀ x, stop = some x → Built leaves x) →
        e.sliceOp t start stop step ≠ .error .fatal) ∧
    (∀ uid inputType, lambdaPlaceholder e uid inputType ≠ .error .fatal) ∧
    (∀ name uid inputType ph body retF args,
        lambdaPlaceholder e uid inputType = .ok ph →
        Built (fun x => leaves x ∨ x = ph) body →
        e.bin_lambda_method name uid body retF args ≠ .error .fatal) := by
  have hsv : StrongValid e := built_strongValid hb hl
  have hvself : ∀ ast t, (Expression.mk ast t e.indices e.aggregations
      e.joins e.refs).verify_sources = true :=
    fun ast t => verify_sources_of_strongValid _ ⟨hsv.1, hsv.2⟩
  refine ⟨verify_sources_of_strongValid e hsv, ?_, ?_, ?_, ?_, ?_, ?_, ?_, ?_, ?_⟩
  · intro op hc
    unfold Expression.unary_op at hc
    rw [construct_expr_ok_of_verify (hvself _ _)] at hc
    cases hc
  · intro n t hc
    unfold Expression.field at hc
    rw [construct_expr_ok_of_verify (hvself _ _)] at hc
    cases hc
  · intro op o t hbo hc
    unfold Expression.bin_op at hc
    refine bindConstruct_ne_fatal [e, o] _ _ ?_ hc
    intro x hx
    rcases List.mem_cons.mp hx with rfl | hx'
    · exact hsv
    · simp at hx'
      subst hx'
      exact built_strongValid hbo hl
  · intro op o t hbo hc
    unfold Expression.bin_op_reverse at hc
    refine bindConstruct_ne_fatal [e, o] _ _ ?_ hc
    intro x hx
    rcases List.mem_cons.mp hx with rfl | hx'
    · exact hsv
    · simp at hx'
      subst hx'
      exact built_strongValid hbo hl
  · intro n t args hargs hc
    unfold Expression.method at hc
    refine bindConstruct_ne_fatal (e :: args) _ _ ?_ hc
    intro x hx
    rcases List.mem_cons.mp hx with rfl | hx'
    · exact hsv
    · exact built_strongValid (hargs x hx') hl
  · intro t k hbk hc
    unfold Expression.indexOp at hc
    refine bindConstruct_ne_fatal [e, k] _ _ ?_ hc
    intro x hx
    rcases List.mem_cons.mp hx with rfl | hx'
    · exact hsv
    · simp at hx'
      subst hx'
      exact built_strongValid hbk hl
  · intro t start stop step hstart hstop hc
    unfold Expression.sliceOp at hc
    split at hc
    · simp at hc
    · refine bindConstruct_ne_fatal (e :: (start.toList ++ stop.toList)) _ _ ?_ hc
      intro x hx
      rcases List.mem_cons.mp hx with rfl | hx'
      · exact hsv
      · rcases List.mem_append.mp hx' with hx2 | hx2
        · exact built_strongValid (hstart x (Option.mem_toList.mp hx2)) hl
        · exact built_strongValid (hstop x (Option.mem_toList.mp hx2)) hl
  · intro uid inputType hc
    unfold lambdaPlaceholder at hc
    rw [construct_expr_ok_of_verify (hvself _ _)] at hc
    cases hc
  · intro name uid inputType ph body retF args hph hbody hc
    have hbodyval : StrongValid body := built_strongValid hbody (by
      rintro l (hleaf | rfl)
      · exact hl _ hleaf
      · rw [construct_expr_ok hph]
        exact ⟨hsv.1, hsv.2⟩)
    unfold Expression.bin_lambda_method at hc
    refine bindConstruct_ne_fatal [e, body] _ _ ?_ hc
    intro x hx
    rcases List.mem_cons.mp hx with rfl | hx'
    · exact hsv
    · simp at hx'
      subst hx'
      exact hbodyval

/-- C1 witness: on the concrete leaf, a binary operation constructs an
expression satisfying the invariant, and the construction provably cannot
return the fatal error. -/
theorem C1_witness :
    c1BinResult.verify_sources = true ∧
    c1Leaf.bin_op "+" c1Leaf .tint32 ≠ .error .fatal := by
  have hl : ∀ l, l = c1Leaf → StrongValid l :=
    fun l hleq => by rw [hleq]; unfold StrongValid; decide
  have hleaf : Built (fun x => x = c1Leaf) c1Leaf := Built.leaf rfl
  have hok : c1Leaf.bin_op "+" c1Leaf .tint32 = .ok c1BinResult := rfl
  exact ⟨(C1_source_consistency_invariant hl
            (Built.bin hleaf hleaf hok)).1,
         (C1_source_consistency_invariant hl hleaf).2.2.2.1
            "+" c1Leaf .tint32 hleaf⟩

/-- C1 counterexample to the claim as stated: both leaves pass
`_verify_sources` (the weaker notion of validity the claim's wording
fixes), yet one binary operation over them constructs an expression that
fails the invariant, raising the fatal internal error. -/
theorem C1_counterexample :
    c1BadLeafA.verify_sources = true ∧
    c1BadLeafB.verify_sources = true ∧
    c1BadLeafA.bin_op "+" c1BadLeafB .tint32 = .error .fatal :=
  ⟨by decide, by decide, by rfl⟩

/-! ### Claim C3 -/

/-- C3: `Indices.unify` folds over its inputs accumulating the union of all
axis sets; the accepted source is the first non-null source; any input
carrying a different non-null source makes unification fail; and the
resulting axis set does not depend on the order of the inputs. -/
theorem C3_indices_unify (l : List Indices) :
    (∀ r, Indices.unify l = .ok r →
        (∀ a, a ∈ r.axes ↔ ∃ i ∈ l, a ∈ i.axes) ∧
        r.source = l.findSome? (·.source) ∧
        (∀ i ∈ l, i.source ≠ none → i.source = r.source)) ∧
    (∀ i ∈ l, ∀ j ∈ l, ∀ a b : Nat, i.source = some a → j.source = some b →
        a ≠ b → Indices.unify l = .error ()) ∧
    (∀ l' r r', l.Perm l' → Indices.unify l = .ok r →
        Indices.unify l' = .ok r' → r.axes = r'.axes) := by
  refine ⟨?_, ?_, ?_⟩
  · intro r h
    exact ⟨unify_ok_axes l r h, unify_ok_source l r h, unify_ok_mem_source l r h⟩
  · intro i hi j hj a b ha hb hab
    exact unify_error_of_distinct_sources l i j hi hj a b ha hb hab
  · intro l' r r' hp h h'
    ext a
    rw [unify_ok_axes l r h a, unify_ok_axes l' r' h' a]
    constructor
    · rintro ⟨i, hi, hx⟩
      exact ⟨i, hp.mem_iff.mp hi, hx⟩
    · rintro ⟨i, hi, hx⟩
      exact ⟨i, hp.mem_iff.mpr hi, hx⟩

/-- C3 witness: unifying `(src=1, axes={r})` with `(src=None, axes={c})`
succeeds with source `1` and axes `{r, c}`; two distinct non-null sources
fail. -/
theorem C3_witness :
    Indices.unify [⟨some 1, ∅⟩, ⟨some 2, ∅⟩] = .error () ∧
    Indices.unify [⟨some 1, {"r"}⟩, ⟨none, {"c"}⟩] =
      .ok ⟨some 1, insert "r" {"c"}⟩ :=
  ⟨(C3_indices_unify [⟨some 1, ∅⟩, ⟨some 2, ∅⟩]).2.1 ⟨some 1, ∅⟩ (by simp)
      ⟨some 2, ∅⟩ (by simp) 1 2 rfl rfl (by decide),
   by rfl⟩

/-! ### Claim C4 -/

/-- C4: `unify_all` over a non-empty operand list: on success it returns
the unified indices plus the push-concatenation of all operands'
aggregation/join/refs lists with the first operand's lists as the base (the
base survives as a suffix; the whole is a permutation of the concatenation);
when `Indices.unify` fails it raises the user-facing cross-source error
whose payload groups, by source, the field names pulled from every
operand's refs and every aggregation's refs. -/
theorem C4_unify_all (first : Expression) (rest : List Expression) :
    (∀ u, unify_all (first :: rest) = .ok u →
        Indices.unify ((first :: rest).map (·.indices)) = .ok u.indices ∧
        u.aggregations.Perm (((first :: rest).map (·.aggregations)).flatten) ∧
        u.joins.Perm (((first :: rest).map (·.joins)).flatten) ∧
        u.refs.Perm (((first :: rest).map (·.refs)).flatten) ∧
        first.aggregations <:+ u.aggregations ∧
        first.joins <:+ u.joins ∧
        first.refs <:+ u.refs) ∧
    (∀ er, Indices.unify ((first :: rest).map (·.indices)) = .error er →
        unify_all (first :: rest) =
          .error (.crossSource (groupRefsBySource (first :: rest))) ∧
        ∀ src, bucketNames (groupRefsBySource (first :: rest)) src =
          (if refsNamesFor (((first :: rest).map allRefsOf).flatten) src = []
           then none
           else some (refsNamesFor (((first :: rest).map allRefsOf).flatten) src))) := by
  constructor
  · intro u h
    simp only [unify_all] at h
    cases hu : Indices.unify ((first :: rest).map (·.indices)) with
    | error er => rw [hu] at h; cases h
    | ok inds =>
      rw [hu] at h
      cases h
      refine ⟨rfl, ?_, ?_, ?_, ?_, ?_, ?_⟩
      · exact (foldl_llPush_perm (·.aggregations) rest first.aggregations).trans
          (by simp)
      · exact (foldl_llPush_perm (·.joins) rest first.joins).trans (by simp)
      · exact (foldl_llPush_perm (·.refs) rest first.refs).trans (by simp)
      · exact suffix_foldl_llPush (·.aggregations) rest first.aggregations
      · exact suffix_foldl_llPush (·.joins) rest first.joins
      · exact suffix_foldl_llPush (·.refs) rest first.refs
  · intro er hu
    refine ⟨?_, fun src => bucketNames_groupRefsBySource (first :: rest) src⟩
    simp only [unify_all]
    rw [hu]

/-- C4 witness: combining expressions bound to two different sources fails
with the cross-source diagnostic, whose buckets name the fields pulled from
each source. -/
theorem C4_witness :
    unify_all [c4LeafA, c4LeafB] =
      .error (.crossSource (groupRefsBySource [c4LeafA, c4LeafB])) ∧
    bucketNames (groupRefsBySource [c4LeafA, c4LeafB]) (some 1) = some ["x"] ∧
    bucketNames (groupRefsBySource [c4LeafA, c4LeafB]) (some 2) = some ["y"] := by
  have h := (C4_unify_all c4LeafA [c4LeafB]).2 () (by rfl)
  refine ⟨h.1, ?_, ?_⟩
  · rw [h.2 (some 1)]
    decide
  · rw [h.2 (some 2)]
    decide

/-! ### Type-unification lemmas -/

/-- A non-empty list all of whose members equal `t` dedups to `[t]`. -/
theorem dedup_eq_singleton_of_all_eq (ts : List HailType) (t : HailType)
    (hne : ts ≠ []) (hall : ∀ x ∈ ts, x = t) : ts.dedup = [t] := by
  induction ts with
  | nil => exact absurd rfl hne
  | cons a l ih =>
    have ha : a = t := hall a (List.mem_cons_self a l)
    subst ha
    cases l with
    | nil => simp
    | cons b l' =>
      have hb : b = a := by
        have := hall b (by simp)
        have ha' := hall a (by simp)
        rw [this, ha']
      have hmem : a ∈ b :: l' := by rw [hb]; exact List.mem_cons_self a l'
      rw [List.dedup_cons_of_mem hmem]
      exact ih (by simp) (fun x hx => hall x (List.mem_cons_of_mem a hx))

/-- If the dedup is a singleton `[t]`, every member equals `t`. -/
theorem all_eq_of_dedup_singleton (ts : List HailType) (t : HailType)
    (h : ts.dedup = [t]) : ∀ x ∈ ts, x = t := by
  intro x hx
  have : x ∈ ts.dedup := List.mem_dedup.mpr hx
  rw [h] at this
  simpa using this

/-- The `assert type_set == {tint32, tint64}` inside `unify_types_limited`
holds whenever it is reached on non-empty input: all numeric, more than one
distinct type, no floats forces exactly the pair `{int32, int64}`. -/
theorem unify_types_limited_assert (ts : List HailType) (hne : ts ≠ [])
    (hnum : ts.all isNumeric = true)
    (hlen : ts.dedup.length ≠ 1)
    (h64 : tfloat64 ∉ ts.dedup) (h32 : tfloat32 ∉ ts.dedup) :
    tint32 ∈ ts.dedup ∧ tint64 ∈ ts.dedup ∧
      ∀ x ∈ ts.dedup, x = tint32 ∨ x = tint64 := by
  have hsub : ∀ x ∈ ts.dedup, x = tint32 ∨ x = tint64 := by
    intro x hx
    have hxts : x ∈ ts := List.mem_dedup.mp hx
    have : isNumeric x = true := by
      have := List.all_eq_true.mp hnum
      exact this x hxts
    cases x <;> simp_all [isNumeric]
  refine ⟨?_, ?_, hsub⟩
  · by_contra h32m
    have : ∀ x ∈ ts, x = tint64 := by
      intro x hx
      have := hsub x (List.mem_dedup.mpr hx)
      rcases this with h | h
      · exact absurd (h ▸ List.mem_dedup.mpr hx) h32m
      · exact h
    have := dedup_eq_singleton_of_all_eq ts tint64 hne this
    rw [this] at hlen
    simp at hlen
  · by_contra h64m
    have : ∀ x ∈ ts, x = tint32 := by
      intro x hx
      have := hsub x (List.mem_dedup.mpr hx)
      rcases this with h | h
      · exact h
      · exact absurd (h ▸ List.mem_dedup.mpr hx) h64m
    have := dedup_eq_singleton_of_all_eq ts tint32 hne this
    rw [this] at hlen
    simp at hlen

/-! ### Claim C2 -/

/-- C2: `unify_types_limited` on a non-empty collection returns the single
type when all inputs are identical; otherwise, when all inputs are numeric,
float64 wins if present, else float32 if present, else the mix
`{int32, int64}` gives int64; and in every other case the distinguishable
no-unification sentinel `none` is returned rather than an error raised. -/
theorem C2_unify_types_limited (ts : List HailType) (hne : ts ≠ []) :
    (∀ t, (∀ x ∈ ts, x = t) → unify_types_limited ts = some t) ∧
    ((¬ ∃ t, ∀ x ∈ ts, x = t) → ts.all isNumeric = true →
        (tfloat64 ∈ ts → unify_types_limited ts = some .tfloat64) ∧
        (tfloat64 ∉ ts → tfloat32 ∈ ts → unify_types_limited ts = some .tfloat32) ∧
        (tfloat64 ∉ ts → tfloat32 ∉ ts → unify_types_limited ts = some .tint64)) ∧
    ((¬ ∃ t, ∀ x ∈ ts, x = t) → ts.all isNumeric ≠ true →
        unify_types_limited ts = none) := by
  have hlen : (¬ ∃ t, ∀ x ∈ ts, x = t) → ts.dedup.length ≠ 1 := by
    intro hno hl
    rcases List.length_eq_one.mp hl with ⟨t, ht⟩
    exact hno ⟨t, all_eq_of_dedup_singleton ts t ht⟩
  refine ⟨?_, ?_, ?_⟩
  · intro t hall
    have hd := dedup_eq_singleton_of_all_eq ts t hne hall
    unfold unify_types_limited
    rw [hd]
    simp
  · intro hno hnum
    refine ⟨?_, ?_, ?_⟩
    · intro h64
      unfold unify_types_limited
      rw [if_neg (hlen hno), if_pos hnum, if_pos (List.mem_dedup.mpr h64)]
    · intro h64 h32
      unfold unify_types_limited
      rw [if_neg (hlen hno), if_pos hnum,
        if_neg (fun hh => h64 (List.mem_dedup.mp hh)),
        if_pos (List.mem_dedup.mpr h32)]
    · intro h64 h32
      unfold unify_types_limited
      rw [if_neg (hlen hno), if_pos hnum,
        if_neg (fun hh => h64 (List.mem_dedup.mp hh)),
        if_neg (fun hh => h32 (List.mem_dedup.mp hh))]
  · intro hno hnn
    unfold unify_types_limited
    rw [if_neg (hlen hno), if_neg hnn]

/-- C2 witness: the three concrete unifications named by the claim. -/
theorem C2_witness :
    unify_types_limited [.tint32, .tint64] = some .tint64 ∧
    unify_types_limited [.tint32, .tfloat64] = some .tfloat64 ∧
    unify_types_limited [.tint32, .tbool] = none := by
  have hno1 : ¬ ∃ t, ∀ x ∈ [HailType.tint32, HailType.tint64], x = t := by
    rintro ⟨t, ht⟩
    have h1 := ht .tint32 (by simp)
    have h2 := ht .tint64 (by simp)
    rw [← h1] at h2
    exact HailType.noConfusion h2
  have hno2 : ¬ ∃ t, ∀ x ∈ [HailType.tint32, HailType.tfloat64], x = t := by
    rintro ⟨t, ht⟩
    have h1 := ht .tint32 (by simp)
    have h2 := ht .tfloat64 (by simp)
    rw [← h1] at h2
    exact HailType.noConfusion h2
  have hno3 : ¬ ∃ t, ∀ x ∈ [HailType.tint32, HailType.tbool], x = t := by
    rintro ⟨t, ht⟩
    have h1 := ht .tint32 (by simp)
    have h2 := ht .tbool (by simp)
    rw [← h1] at h2
    exact HailType.noConfusion h2
  refine ⟨?_, ?_, ?_⟩
  · exact ((C2_unify_types_limited _ (by simp)).2.1 hno1 (by decide)).2.2
      (by decide) (by decide)
  · exact ((C2_unify_types_limited _ (by simp)).2.1 hno2 (by decide)).1
      (by decide)
  · exact (C2_unify_types_limited _ (by simp)).2.2 hno3 (by decide)

/-! ### Claim C6 -/

/-- C6: `impute_type` maps a bool to boolean; an integer to int32 when in
int32 range, else int64 when in int64 range, else the value-range failure;
a float to float64; a non-empty list to the array of the unified element
type, failing with the heterogeneity error when the element types have no
limited unification; an empty list, set or dict to a failure; and None to a
failure; with `impute_type([1,2,3]) = array<int32>` and `[1,"a"]`, `[]`,
`{}` all failing. -/
theorem C6_impute_type :
    (∀ b, imputeType (.vbool b) = .ok .tbool) ∧
    (∀ n : Int,
        (int32Min ≤ n ∧ n ≤ int32Max → imputeType (.vint n) = .ok .tint32) ∧
        (¬(int32Min ≤ n ∧ n ≤ int32Max) → int64Min ≤ n ∧ n ≤ int64Max →
            imputeType (.vint n) = .ok .tint64) ∧
        (¬(int32Min ≤ n ∧ n ≤ int32Max) → ¬(int64Min ≤ n ∧ n ≤ int64Max) →
            imputeType (.vint n) = .error .intOutOfRange)) ∧
    (∀ tag, imputeType (.vfloat tag) = .ok .tfloat64) ∧
    (∀ x xs ts, imputeList (x :: xs) = .ok ts →
        (∀ u, unify_types_limited ts = some u →
            imputeType (.vlist (x :: xs)) = .ok (.tarray u)) ∧
        (unify_types_limited ts = none →
            imputeType (.vlist (x :: xs)) = .error .heterogeneousList)) ∧
    imputeType (.vlist []) = .error .emptyList ∧
    imputeType (.vset []) = .error .emptySet ∧
    imputeType (.vdict []) = .error .emptyDict ∧
    imputeType .vNone = .error .noneValue ∧
    imputeType (.vlist [.vint 1, .vint 2, .vint 3]) = .ok (.tarray .tint32) ∧
    imputeType (.vlist [.vint 1, .vstr "a"]) = .error .heterogeneousList := by
  refine ⟨fun b => rfl, ?_, fun tag => rfl, ?_, rfl, rfl, rfl, rfl, rfl, rfl⟩
  · intro n
    refine ⟨?_, ?_, ?_⟩
    · intro h32
      simp only [imputeType]
      rw [if_pos h32]
    · intro h32 h64
      simp only [imputeType]
      rw [if_neg h32, if_pos h64]
    · intro h32 h64
      simp only [imputeType]
      rw [if_neg h32, if_neg h64]
  · intro x xs ts hts
    constructor
    · intro u hu
      simp only [imputeType, List.isEmpty_cons]
      rw [if_neg Bool.false_ne_true, hts]
      simp only [Bind.bind, Except.bind]
      rw [hu]
      rfl
    · intro hu
      simp only [imputeType, List.isEmpty_cons]
      rw [if_neg Bool.false_ne_true, hts]
      simp only [Bind.bind, Except.bind]
      rw [hu]

/-- C6 witness: evaluating the int64 branch and a unified float list. -/
theorem C6_witness :
    imputeType (.vint 3000000000) = .ok .tint64 ∧
    imputeType (.vlist [.vint 1, .vfloat 0]) = .ok (.tarray .tfloat64) := by
  constructor
  · exact (C6_impute_type.2.1 3000000000).2.1 (by decide) (by decide)
  · exact ((C6_impute_type.2.2.2.1 (.vint 1) [.vfloat 0]
      [.tint32, .tfloat64] rfl).1 .tfloat64 (by rfl))

/-! ### Claim C7 -/

/-- C7 counterexample to the claim as stated: `Expression._field` passes
the receiver's `refs` through *unchanged*; selecting field `y` from a
refs-free receiver yields an expression whose refs list is empty rather
than containing the pair `("y", receiver.indices)`. -/
theorem C7_counterexample :
    c7Leaf.field "y" .tint32 =
      .ok ⟨.select (.leaf 0) "y", .tint32, ⟨some 1, ∅⟩, [], [], []⟩ ∧
    c7Leaf.refs = [] := ⟨rfl, rfl⟩

/-- C7 (amended): the field-select builder preserves the receiver's whole
lineage — indices, aggregations, joins *and* refs are passed through
unchanged (no ref is appended by `_field` itself; ref recording happens at
the source-field access points outside this module) — and wraps the AST in
a `Select` node with the requested result type. -/
theorem C7_field_select (e : Expression) (n : String) (t : HailType)
    (r : Expression) (h : e.field n t = .ok r) :
    r.indices = e.indices ∧ r.aggregations = e.aggregations ∧
    r.joins = e.joins ∧ r.refs = e.refs ∧
    r.ast = .select e.ast n ∧ r.type = t := by
  have := construct_expr_ok h
  subst this
  exact ⟨rfl, rfl, rfl, rfl, rfl, rfl⟩

/-- C7 witness: the amended statement applied at the concrete receiver. -/
theorem C7_witness :
    (⟨.select (.leaf 0) "y", .tint32, ⟨some 1, ∅⟩, [], [], []⟩ : Expression).refs
      = c7Leaf.refs :=
  (C7_field_select c7Leaf "y" .tint32 _ rfl).2.2.2.1

/-! ### Claim C8 -/

/-- C8: the unsupported operations always raise: ordering comparisons
(lt/le/gt/ge), truthiness, iteration and length are rejected for every
operand, and a slice with a non-null step is rejected outright; none of
them ever succeeds. -/
theorem C8_unsupported_operations (e other : Expression) (t : HailType)
    (start stop : Option Expression) (step : Expression) :
    e.lt other = .error .notImplemented ∧
    e.le other = .error .notImplemented ∧
    e.gt other = .error .notImplemented ∧
    e.ge other = .error .notImplemented ∧
    e.nonzero = .error .notImplemented ∧
    e.iterOp = .error .typeErr ∧
    e.lenOp = .error .typeErr ∧
    e.sliceOp t start stop (some step) = .error .notImplemented :=
  ⟨rfl, rfl, rfl, rfl, rfl, rfl, rfl, rfl⟩

/-! ### Claim C9 -/

/-- C9 counterexample to the claim as stated: element-type unification
inside `unify_types` is *limited*, not recursive; the element types
`array<int32>` and `array<int64>` unify under the recursive definition
(to `array<int64>`), yet the doubly-nested arrays do not unify. -/
theorem C9_counterexample :
    unify_types [.tarray .tint32, .tarray .tint64] = some (.tarray .tint64) ∧
    unify_types [.tarray (.tarray .tint32), .tarray (.tarray .tint64)] = none :=
  ⟨by decide, by decide⟩

/-- C9 (amended): `unify_types` first attempts limited unification; if that
fails and every input is an array type, it applies *limited* (one-level,
not recursive) unification to the element types and wraps the result in an
array type; otherwise it returns the no-unification sentinel.  Hence any
arrays whose element types unify under the limited rules yield the array of
the unified element type. -/
theorem C9_unify_types (ts : List HailType) :
    (∀ t, unify_types_limited ts = some t → unify_types ts = some t) ∧
    (unify_types_limited ts = none → ts.all isArray = true →
        (∀ u, unify_types_limited (ts.map elementType) = some u →
            unify_types ts = some (.tarray u)) ∧
        (unify_types_limited (ts.map elementType) = none →
            unify_types ts = none)) ∧
    (unify_types_limited ts = none → ts.all isArray ≠ true →
        unify_types ts = none) := by
  refine ⟨?_, ?_, ?_⟩
  · intro t h
    unfold unify_types
    rw [h]
  · intro hlim harr
    constructor
    · intro u hu
      unfold unify_types
      rw [hlim, if_pos harr, hu]
    · intro hu
      unfold unify_types
      rw [hlim, if_pos harr, hu]
  · intro hlim harr
    unfold unify_types
    rw [hlim, if_neg harr]

/-- C9 witness: one-level array unification through the amended theorem. -/
theorem C9_witness :
    unify_types [.tarray .tint32, .tarray .tint64] = some (.tarray .tint64) :=
  ((C9_unify_types [.tarray .tint32, .tarray .tint64]).2.1
    (by decide) (by decide)).1 .tint64 (by decide)

/-! ### Claim C5 -/

/-- C5: materializing a 1-axis expression over a matrix source: when the
reverse lookup finds a field bound to the expression's identity, that field
is reused — only the keys are selected when it is a key field, else the
keys plus that field — and it is renamed to the requested output name, the
emitted plan containing no derivation node; only when the lookup finds
nothing is a brand-new field derived. -/
theorem C5_field_reuse (source : MatrixSource) (inds : Indices) (exprId : Nat)
    (name : String) :
    (∀ f, source.fieldsInverse exprId = some f →
        hasDerivation (matrixToTableOneAxis source inds exprId name) = false ∧
        (inds = source.rowIndices →
          matrixToTableOneAxis source inds exprId name =
            .selectGlobals (.rows (.rename f name
              (if f ∈ source.rowKey
               then .selectRowFields source.rowKey .base
               else .selectRowFields (source.rowKey ++ [f]) .base)))) ∧
        (inds ≠ source.rowIndices →
          matrixToTableOneAxis source inds exprId name =
            .selectGlobals (.cols (.rename f name
              (if f ∈ source.colKey
               then .selectColFields source.colKey .base
               else .selectColFields (source.colKey ++ [f]) .base))))) ∧
    (source.fieldsInverse exprId = none →
        hasDerivation (matrixToTableOneAxis source inds exprId name) = true) := by
  constructor
  · intro f hf
    refine ⟨?_, ?_, ?_⟩
    · unfold matrixToTableOneAxis
      by_cases hrow : inds = source.rowIndices
      · rw [if_pos hrow]
        simp only [hf]
        by_cases hk : f ∈ source.rowKey
        · rw [if_pos hk]; rfl
        · rw [if_neg hk]; rfl
      · rw [if_neg hrow]
        simp only [hf]
        by_cases hk : f ∈ source.colKey
        · rw [if_pos hk]; rfl
        · rw [if_neg hk]; rfl
    · intro hrow
      unfold matrixToTableOneAxis
      rw [if_pos hrow]
      simp only [hf]
    · intro hrow
      unfold matrixToTableOneAxis
      rw [if_neg hrow]
      simp only [hf]
  · intro hf
    unfold matrixToTableOneAxis
    by_cases hrow : inds = source.rowIndices
    · rw [if_pos hrow]
      simp only [hf]
      rfl
    · rw [if_neg hrow]
      simp only [hf]
      rfl

/-- C5 witness: on `c5Source` (row key `k`, bound non-key row field `f`
with expression identity 10), identity 10 is reused with a rename and no
derivation, and an unknown identity 99 derives a new field. -/
theorem C5_witness :
    hasDerivation (matrixToTableOneAxis c5Source c5Source.rowIndices 10 "out")
      = false ∧
    matrixToTableOneAxis c5Source c5Source.rowIndices 10 "out" =
      .selectGlobals (.rows (.rename "f" "out"
        (.selectRowFields ["k", "f"] .base))) ∧
    hasDerivation (matrixToTableOneAxis c5Source c5Source.rowIndices 99 "out")
      = true := by
  have h := (C5_field_reuse c5Source c5Source.rowIndices 10 "out").1 "f" (by rfl)
  refine ⟨h.1, ?_, (C5_field_reuse c5Source c5Source.rowIndices 99 "out").2 (by rfl)⟩
  rw [h.2.1 rfl]
  decide

/-! ### Claim C10 -/

/-- C10: the code contradicts the rendering contract at the failing input:
`MatrixAnnotateRowsTable.render` interpolates `root = a"b` between double
quotes without escaping (the emitted text embeds the raw quote, breaking
the grammar), although `escape_str` would have produced the escaped form,
and sibling renderers such as `MatrixRead.render` do escape their free-text
blob. -/
theorem C10_unescaped_root :
    matrixAnnotateRowsTableRender "a\"b" none "CHILD" "TABLE" =
      "(MatrixAnnotateRowsTable \"a\"b\" False CHILD TABLE )" ∧
    escape_str "a\"b" = "a\\\"b" ∧
    matrixAnnotateRowsTableRender "a\"b" none "CHILD" "TABLE" ≠
      "(MatrixAnnotateRowsTable \"" ++ escape_str "a\"b" ++
        "\" False CHILD TABLE )" ∧
    matrixReadRender "p" false false =
      "(MatrixRead None False False \"" ++
        escape_str (matrixReadConfig "p") ++ "\")" :=
  ⟨rfl, rfl, by decide, rfl⟩

end Hail
